import Mathlib

/-!
# Verification of the ZigZin NFA→DFA toolchain core

Shallow embedding of `src/toolchain/nfa_dfa_conversion.py`:

* Python dicts are modelled as association lists in insertion order
  (`alistGet` is `d.get(k)` / `d[k]`, `dictSet` is `d[k] = v`,
  `appendAt` is `d.setdefault(k, []).append(v)`).
* Python sets of ints are modelled as duplicate-free lists carrying an
  insertion order; `frozenset` keys are canonicalised by `canon`
  (sorted, duplicate-free), which realises the extensional equality of
  Python sets.  The iteration order of a `frozenset` — used by the
  source when it joins accept labels — is implementation defined in
  Python, so it enters the embedding as an explicit enumeration
  function `io : List Nat → List Nat` applied to the canonical form.
* `while` loops become fuel-indexed recursions; the fuel is chosen
  large enough, and for the closure loop sufficiency is proved.
-/

namespace ZigZin

/-- `d.get(k)` on a Python dict modelled as an insertion-ordered
association list: the value at the first (unique) matching key. -/
def alistGet {κ β : Type} [DecidableEq κ] : List (κ × β) → κ → Option β
  | [], _ => none
  | (k', v) :: rest, k => if k' = k then some v else alistGet rest k

/-- `d[k] = v` on a Python dict: replace the value at an existing key in
place, otherwise append the new binding at the end. -/
def dictSet {κ β : Type} [DecidableEq κ] : List (κ × β) → κ → β → List (κ × β)
  | [], k, v => [(k, v)]
  | (k', v') :: rest, k, v =>
      if k' = k then (k, v) :: rest else (k', v') :: dictSet rest k v

/-- `d.setdefault(k, []).append(v)` on a Python dict of lists. -/
def appendAt {κ β : Type} [DecidableEq κ] : List (κ × List β) → κ → β → List (κ × List β)
  | [], k, v => [(k, [v])]
  | (k', vs) :: rest, k, v =>
      if k' = k then (k', vs ++ [v]) :: rest else (k', vs) :: appendAt rest k v

/-- The `NFA` class: `transitions` keyed by `(state, symbol)` with
`none` playing the role of Python's `None` (ε), `start`, and the
accept-state → label mapping. -/
structure NFA where
  transitions : List ((Nat × Option Char) × List Nat)
  start : Nat
  accept : List (Nat × String)

/-- The `DFA` class produced by the conversion. -/
structure DFA where
  transitions : List ((Nat × Char) × Nat)
  start : Nat
  accept : List (Nat × String)

/-- `nfa.transitions.get((state, symbol), [])`. -/
def lookupT (nfa : NFA) (k : Nat × Option Char) : List Nat :=
  (alistGet nfa.transitions k).getD []

/-- `set(nfa.accept.keys())`. -/
def acceptKeys (nfa : NFA) : List Nat := nfa.accept.map (·.1)

/-- The inner `for next_state in next_states` body of `epsilon_closure`:
add each target that is not yet in the closure, and push it on the
stack (the stack top is the list head here; Python pushes/pops at the
list tail, which only permutes the visit order, not the resulting set —
see `epsilon_closure_mem`). -/
def pushNew : List Nat × List Nat → List Nat → List Nat × List Nat
  | p, [] => p
  | (cl, st), n :: ns =>
      if n ∈ cl then pushNew (cl, st) ns else pushNew (cl ++ [n], n :: st) ns

/-- The `while stack:` loop of `epsilon_closure`, with explicit fuel.
Each iteration pops one state and pushes its unseen ε-targets. -/
def closureLoop (nfa : NFA) : Nat → List Nat → List Nat → List Nat
  | 0, cl, _ => cl
  | _ + 1, cl, [] => cl
  | fuel + 1, cl, state :: st =>
      let p := pushNew (cl, st) (lookupT nfa (state, none))
      closureLoop nfa fuel p.1 p.2

/-- All states occurring in some transition target list. -/
def allTargets (nfa : NFA) : List Nat := (nfa.transitions.map (·.2)).flatten

/-- Fuel that provably drains the closure stack: every state is pushed
at most once, so the loop runs at most `|universe| + |initial stack|`
iterations. -/
def closureFuel (nfa : NFA) (states : List Nat) : Nat :=
  (states.dedup ++ allTargets nfa).dedup.length + states.dedup.length + 1

/-- `epsilon_closure(nfa, states)`: `closure = set(states)`,
`stack = list(states)`, then the worklist loop. -/
def epsilon_closure (nfa : NFA) (states : List Nat) : List Nat :=
  closureLoop nfa (closureFuel nfa states) states.dedup states.dedup

/-- One step of the `result.add(next_state)` accumulation in `move_nfa`. -/
def addNew (r : List Nat) (ns : List Nat) : List Nat :=
  ns.foldl (fun r n => if n ∈ r then r else r ++ [n]) r

/-- `move_nfa(nfa, states, symbol)`: the union of the `(state, symbol)`
transition targets over all `state in states`. -/
def move_nfa (nfa : NFA) (states : List Nat) (symbol : Char) : List Nat :=
  states.foldl (fun r state => addNew r (lookupT nfa (state, some symbol))) []

/-- Canonical form of a Python set / `frozenset` of ints: sorted and
duplicate-free, so two sets are `=` iff they are extensionally equal. -/
def canon (l : List Nat) : List Nat := List.insertionSort (· ≤ ·) l.dedup

/-- Python's `str.strip()`: remove leading and trailing whitespace.
(Structurally recursive model of `String.trim`, so that the kernel can
evaluate it on literals.) -/
def pyStrip (s : String) : String :=
  ⟨((s.data.dropWhile Char.isWhitespace).reverse.dropWhile Char.isWhitespace).reverse⟩

/-- `s.startswith("//")` (structural model of `String.startsWith`). -/
def pyCommentStart (s : String) : Bool := ("//".data).isPrefixOf s.data

/-- Models Python `int(s)` on an already-stripped string: an optional
sign followed by one or more digits; anything else raises `ValueError`
(here: `none`). -/
def pyInt? (s : String) : Option Int :=
  let chars := s.toList
  let sign : Int := if chars.head? = some '-' then -1 else 1
  let digits := match chars with
    | '-' :: rest => rest
    | '+' :: rest => rest
    | cs => cs
  if digits ≠ [] ∧ digits.all Char.isDigit then
    some (sign * (digits.foldl (fun acc c => acc * 10 + (c.toNat - 48)) 0 : Nat))
  else none

/-- The body of the `for row in reader` loop of
`read_nfa_transitions_csv`: skip empty rows, `//` comments, rows whose
column count is not three and rows with non-integer endpoints; keep the
rest, with `symbol = input_str[0] if input_str else None`. -/
def readRowStep (ts : List ((Int × Option Char) × List Int)) (row : List String) :
    List ((Int × Option Char) × List Int) :=
  if pyCommentStart (pyStrip (row.headD "")) then ts
  else match row with
    | [c0, c1, c2] =>
        match pyInt? (pyStrip c0), pyInt? (pyStrip c2) with
        | some frm, some t =>
            let input_str := pyStrip c1
            let symbol : Option Char := input_str.toList.head?
            appendAt ts (frm, symbol) t
        | _, _ => ts
    | _ => ts

/-- `read_nfa_transitions_csv`, applied to the rows produced by
`csv.reader` (the file handling and CSV field splitting are outside the
embedding: a row is its list of fields). -/
def read_nfa_transitions_csv (rows : List (List String)) :
    List ((Int × Option Char) × List Int) :=
  rows.foldl readRowStep []

/-- A row that `read_nfa_transitions_csv` silently drops: a comment row
(first field starts with `//` after stripping), a row whose column
count is not three (this includes the empty row), or a row whose `From`
or `To` field is not an integer. -/
def skippedRow (row : List String) : Bool :=
  pyCommentStart (pyStrip (row.headD "")) ||
    (match row with
     | [c0, _, c2] => (pyInt? (pyStrip c0)).isNone || (pyInt? (pyStrip c2)).isNone
     | _ => true)

/-- `", ".join([nfa.accept[s] for s in subset if s in nfa.accept])`,
where `io` supplies the `frozenset` iteration order over the canonical
subset. -/
def labelJoin (nfa : NFA) (io : List Nat → List Nat) (subset : List Nat) : String :=
  String.intercalate ", " ((io subset).filterMap (fun s => alistGet nfa.accept s))

/-- The mutable locals of `convert_nfa_to_dfa`, bundled so the loop can
be stated and so the invariants can talk about the internal
`state_mapping` and `dfa_states`. -/
structure ConvState where
  dfaTransitions : List ((Nat × Char) × Nat)
  dfaAccept : List (Nat × String)
  stateMapping : List (List Nat × Nat)
  dfaStates : List (List Nat)
  queue : List Nat
  deriving DecidableEq

/-- The `for symbol in alphabet` body of the subset-construction loop:
`move` then ε-closure; an empty move set records nothing; a known
subset reuses its id; a new subset is registered with the next id,
enqueued and (when it meets an accept state) labelled; in both cases
the transition is recorded. -/
def symbolStep (nfa : NFA) (io : List Nat → List Nat) (currentIndex : Nat)
    (currentStateSet : List Nat) (s : ConvState) (symbol : Char) : ConvState :=
  let moveSet := move_nfa nfa currentStateSet symbol
  if moveSet = [] then s
  else
    let nextClosure := canon (epsilon_closure nfa moveSet)
    match alistGet s.stateMapping nextClosure with
    | some nextIndex =>
        { s with dfaTransitions := dictSet s.dfaTransitions (currentIndex, symbol) nextIndex }
    | none =>
        let nextIndex := s.dfaStates.length
        { dfaTransitions := dictSet s.dfaTransitions (currentIndex, symbol) nextIndex
          dfaAccept :=
            if (nextClosure.inter (acceptKeys nfa)) ≠ [] then
              dictSet s.dfaAccept nextIndex (labelJoin nfa io nextClosure)
            else s.dfaAccept
          stateMapping := s.stateMapping ++ [(nextClosure, nextIndex)]
          dfaStates := s.dfaStates ++ [nextClosure]
          queue := s.queue ++ [nextIndex] }

/-- The `while queue:` loop of `convert_nfa_to_dfa`, with explicit
fuel: dequeue an index and process every alphabet symbol in order. -/
def convertLoop (nfa : NFA) (alphabet : List Char) (io : List Nat → List Nat) :
    Nat → ConvState → ConvState
  | 0, s => s
  | fuel + 1, s =>
      match s.queue with
      | [] => s
      | currentIndex :: rest =>
          let currentStateSet := s.dfaStates.getD currentIndex []
          let s' := alphabet.foldl (symbolStep nfa io currentIndex currentStateSet)
            { s with queue := rest }
          convertLoop nfa alphabet io fuel s'

/-- The state of `convert_nfa_to_dfa` just before its `while` loop:
DFA state 0 is the ε-closure of `{nfa.start}`, labelled when it meets
an accept state. -/
def convertInit (nfa : NFA) (io : List Nat → List Nat) : ConvState :=
  let startClosure := canon (epsilon_closure nfa [nfa.start])
  { dfaTransitions := []
    dfaAccept :=
      if (startClosure.inter (acceptKeys nfa)) ≠ [] then
        [(0, labelJoin nfa io startClosure)]
      else []
    stateMapping := [(startClosure, 0)]
    dfaStates := [startClosure]
    queue := [0] }

/-- The construction after `fuel` iterations of the worklist loop
(used to speak about every intermediate state of one run). -/
def convertRun (nfa : NFA) (alphabet : List Char) (io : List Nat → List Nat)
    (fuel : Nat) : ConvState :=
  convertLoop nfa alphabet io fuel (convertInit nfa io)

/-- All states mentioned by the NFA's transitions or start: the subsets
the construction can discover live inside this universe. -/
def stateUniverse (nfa : NFA) : List Nat := (nfa.start :: allTargets nfa).dedup

/-- Fuel for the worklist loop: each iteration dequeues one discovered
subset and distinct subsets of the universe number at most
`2 ^ |universe|`. -/
def convertFuel (nfa : NFA) : Nat := 2 ^ (stateUniverse nfa).length + 1

/-- `convert_nfa_to_dfa` with its internal discovery structures kept. -/
def convert_nfa_to_dfa_full (nfa : NFA) (alphabet : List Char)
    (io : List Nat → List Nat) : ConvState :=
  convertRun nfa alphabet io (convertFuel nfa)

/-- `convert_nfa_to_dfa(nfa, alphabet)`; `alphabet` carries the
iteration order of the Python set argument, `io` the `frozenset`
iteration order used for label joining. -/
def convert_nfa_to_dfa (nfa : NFA) (alphabet : List Char)
    (io : List Nat → List Nat) : DFA :=
  let s := convert_nfa_to_dfa_full nfa alphabet io
  ⟨s.dfaTransitions, 0, s.dfaAccept⟩

/-- Reachability through ε-transitions only (reflexive–transitive). -/
inductive EpsReach (nfa : NFA) : Nat → Nat → Prop
  | refl (x : Nat) : EpsReach nfa x x
  | step {x y z : Nat} : EpsReach nfa x y → z ∈ lookupT nfa (y, none) → EpsReach nfa x z

/-- The universe used to bound the closure computation. -/
def closureUniverse (nfa : NFA) (states : List Nat) : List Nat :=
  (states.dedup ++ allTargets nfa).dedup

/-- The invariant maintained by the construction: `state_mapping` is
exactly the (subset, id) graph of `dfa_states`; discovered subsets are
canonical and pairwise distinct; `dfa_accept` has one entry exactly for
each discovered subset meeting the NFA accept states, labelled by the
join of that subset's accept labels. -/
structure ConvInv (nfa : NFA) (io : List Nat → List Nat) (s : ConvState) : Prop where
  map_eq : s.stateMapping = s.dfaStates.enum.map (fun p => (p.2, p.1))
  states_nodup : s.dfaStates.Nodup
  states_canon : ∀ c ∈ s.dfaStates, List.Sorted (· ≤ ·) c ∧ c.Nodup
  accept_bound : ∀ p ∈ s.dfaAccept, p.1 < s.dfaStates.length
  accept_keys_nodup : (s.dfaAccept.map (·.1)).Nodup
  accept_iff : ∀ (i : Nat) (c : List Nat), s.dfaStates[i]? = some c →
    ((∃ lbl, (i, lbl) ∈ s.dfaAccept) ↔ ∃ x ∈ c, x ∈ acceptKeys nfa)
  accept_label : ∀ (i : Nat) (lbl : String), (i, lbl) ∈ s.dfaAccept →
    ∀ c, s.dfaStates[i]? = some c → lbl = labelJoin nfa io c

/-- Agreement of two construction states on everything except the text
of the accept labels (the label keys still agree). -/
def NonLabelEq (s₁ s₂ : ConvState) : Prop :=
  s₁.dfaTransitions = s₂.dfaTransitions ∧ s₁.stateMapping = s₂.stateMapping ∧
    s₁.dfaStates = s₂.dfaStates ∧ s₁.queue = s₂.queue ∧
    s₁.dfaAccept.map (·.1) = s₂.dfaAccept.map (·.1)

/-- The statement of claim C6, at two points `f ≤ f'` of one run: the
discovery map never assigns two ids to one StateSet (even up to set
extensionality), never assigns one id to two StateSets, and an entry
seen at an earlier point of the run persists unchanged. -/
def MappingInjective (nfa : NFA) (alphabet : List Char) (io : List Nat → List Nat)
    (f f' : Nat) : Prop :=
  (∀ c i j, (c, i) ∈ (convertRun nfa alphabet io f').stateMapping →
    (c, j) ∈ (convertRun nfa alphabet io f').stateMapping → i = j) ∧
  (∀ c d i, (c, i) ∈ (convertRun nfa alphabet io f').stateMapping →
    (d, i) ∈ (convertRun nfa alphabet io f').stateMapping → c = d) ∧
  (∀ c d i j, (c, i) ∈ (convertRun nfa alphabet io f').stateMapping →
    (d, j) ∈ (convertRun nfa alphabet io f').stateMapping →
    (∀ x, x ∈ c ↔ x ∈ d) → i = j) ∧
  (∀ p ∈ (convertRun nfa alphabet io f).stateMapping,
    p ∈ (convertRun nfa alphabet io f').stateMapping)

/-! ## Concrete automata used by the witnesses -/

/-- The concrete NFA of the spec's test scenario:
`{(0,ε):[1], (1,'a'):[2], (2,ε):[3], (3,'b'):[4]}`, start `0`,
accept `{4: "accept"}`. -/
def exampleNFA : NFA :=
  { transitions := [((0, none), [1]), ((1, some 'a'), [2]), ((2, none), [3]),
      ((3, some 'b'), [4])]
    start := 0
    accept := [(4, "accept")] }

/-- An NFA whose only non-start DFA state contains the two accept
states 1 (label `"A"`) and 2 (label `"B"`). -/
def twoLabelNFA : NFA :=
  { transitions := [((0, some 'a'), [1, 2])]
    start := 0
    accept := [(1, "A"), (2, "B")] }

/-! ## Association-list lemmas -/

theorem alistGet_eq_none_iff {κ β : Type} [DecidableEq κ] (d : List (κ × β)) (k : κ) :
    alistGet d k = none ↔ k ∉ d.map (·.1) := by
  induction d with
  | nil => simp [alistGet]
  | cons p rest ih =>
      obtain ⟨k', v⟩ := p
      by_cases h : k' = k
      · subst h
        simp [alistGet]
      · simp only [alistGet, if_neg h, List.map_cons, List.mem_cons, ih]
        constructor
        · intro hnot hmem
          rcases hmem with h1 | h2
          · exact h h1.symm
          · exact hnot h2
        · intro hnot h2
          exact hnot (Or.inr h2)

theorem alistGet_mem {κ β : Type} [DecidableEq κ] (d : List (κ × β)) (k : κ) (v : β)
    (h : alistGet d k = some v) : (k, v) ∈ d := by
  induction d with
  | nil => simp [alistGet] at h
  | cons p rest ih =>
      obtain ⟨k', v'⟩ := p
      by_cases hk : k' = k
      · subst hk
        simp [alistGet] at h
        subst h
        exact List.mem_cons_self _ _
      · simp only [alistGet, if_neg hk] at h
        exact List.mem_cons_of_mem _ (ih h)

theorem alistGet_isSome_iff {κ β : Type} [DecidableEq κ] (d : List (κ × β)) (k : κ) :
    (alistGet d k).isSome ↔ ∃ v, (k, v) ∈ d := by
  constructor
  · intro h
    obtain ⟨v, hv⟩ := Option.isSome_iff_exists.mp h
    exact ⟨v, alistGet_mem d k v hv⟩
  · rintro ⟨v, hv⟩
    rw [Option.isSome_iff_ne_none]
    intro hnone
    rw [alistGet_eq_none_iff] at hnone
    exact hnone (List.mem_map.mpr ⟨(k, v), hv, rfl⟩)

theorem dictSet_of_not_mem {κ β : Type} [DecidableEq κ] (d : List (κ × β)) (k : κ) (v : β)
    (h : k ∉ d.map (·.1)) : dictSet d k v = d ++ [(k, v)] := by
  induction d with
  | nil => rfl
  | cons p rest ih =>
      obtain ⟨k', v'⟩ := p
      simp only [List.map_cons, List.mem_cons] at h
      push_neg at h
      have hk : ¬k' = k := fun hkk => h.1 hkk.symm
      simp [dictSet, hk, ih h.2]

theorem dictSet_map_fst_congr {κ β : Type} [DecidableEq κ] (d₁ : List (κ × β)) :
    ∀ (d₂ : List (κ × β)) (k : κ) (v₁ v₂ : β),
    d₁.map (·.1) = d₂.map (·.1) →
    (dictSet d₁ k v₁).map (·.1) = (dictSet d₂ k v₂).map (·.1) := by
  induction d₁ with
  | nil =>
      intro d₂ k v₁ v₂ h
      cases d₂ with
      | nil => rfl
      | cons q rest => simp at h
  | cons p rest ih =>
      intro d₂ k v₁ v₂ h
      cases d₂ with
      | nil => simp at h
      | cons q rest₂ =>
          obtain ⟨k₁, w₁⟩ := p
          obtain ⟨k₂, w₂⟩ := q
          simp only [List.map_cons, List.cons.injEq] at h
          obtain ⟨hk, hrest⟩ := h
          subst hk
          by_cases hkk : k₁ = k
          · simp only [dictSet, if_pos hkk, List.map_cons]
            exact congrArg _ hrest
          · simp only [dictSet, if_neg hkk, List.map_cons]
            exact congrArg _ (ih rest₂ k v₁ v₂ hrest)

/-! ## `pushNew` (the inner loop of `epsilon_closure`) -/

theorem pushNew_cons (cl st : List Nat) (n : Nat) (ns : List Nat) :
    pushNew (cl, st) (n :: ns)
      = if n ∈ cl then pushNew (cl, st) ns else pushNew (cl ++ [n], n :: st) ns := rfl

theorem pushNew_fst_mem (ns : List Nat) : ∀ cl st x,
    x ∈ (pushNew (cl, st) ns).1 ↔ x ∈ cl ∨ x ∈ ns := by
  induction ns with
  | nil => intro cl st x; simp [pushNew]
  | cons n ns ih =>
      intro cl st x
      rw [pushNew_cons]
      by_cases h : n ∈ cl
      · rw [if_pos h, ih]
        constructor
        · rintro (hx | hx)
          · exact Or.inl hx
          · exact Or.inr (List.mem_cons_of_mem _ hx)
        · rintro (hx | hx)
          · exact Or.inl hx
          · rcases List.mem_cons.mp hx with rfl | hx
            · exact Or.inl h
            · exact Or.inr hx
      · rw [if_neg h, ih]
        constructor
        · rintro (hx | hx)
          · rcases List.mem_append.mp hx with hx | hx
            · exact Or.inl hx
            · exact Or.inr (List.mem_cons.mpr (Or.inl (List.mem_singleton.mp hx)))
          · exact Or.inr (List.mem_cons_of_mem _ hx)
        · rintro (hx | hx)
          · exact Or.inl (List.mem_append.mpr (Or.inl hx))
          · rcases List.mem_cons.mp hx with rfl | hx
            · exact Or.inl (List.mem_append.mpr (Or.inr (List.mem_singleton.mpr rfl)))
            · exact Or.inr hx

theorem pushNew_snd_mem (ns : List Nat) : ∀ cl st x,
    x ∈ (pushNew (cl, st) ns).2 ↔ x ∈ st ∨ (x ∈ ns ∧ x ∉ cl) := by
  induction ns with
  | nil => intro cl st x; simp [pushNew]
  | cons n ns ih =>
      intro cl st x
      rw [pushNew_cons]
      by_cases h : n ∈ cl
      · rw [if_pos h, ih]
        constructor
        · rintro (hx | ⟨hx₁, hx₂⟩)
          · exact Or.inl hx
          · exact Or.inr ⟨List.mem_cons_of_mem _ hx₁, hx₂⟩
        · rintro (hx | ⟨hx₁, hx₂⟩)
          · exact Or.inl hx
          · rcases List.mem_cons.mp hx₁ with rfl | hx₁
            · exact absurd h hx₂
            · exact Or.inr ⟨hx₁, hx₂⟩
      · rw [if_neg h, ih]
        constructor
        · rintro (hx | ⟨hx₁, hx₂⟩)
          · rcases List.mem_cons.mp hx with rfl | hx
            · exact Or.inr ⟨List.mem_cons_self _ _, h⟩
            · exact Or.inl hx
          · have hx₃ : x ∉ cl := fun hc => hx₂ (List.mem_append.mpr (Or.inl hc))
            exact Or.inr ⟨List.mem_cons_of_mem _ hx₁, hx₃⟩
        · rintro (hx | ⟨hx₁, hx₂⟩)
          · exact Or.inl (List.mem_cons_of_mem _ hx)
          · rcases List.mem_cons.mp hx₁ with rfl | hx₁
            · exact Or.inl (List.mem_cons_self _ _)
            · by_cases hxn : x = n
              · subst hxn
                exact Or.inl (List.mem_cons_self _ _)
              · refine Or.inr ⟨hx₁, fun hc => ?_⟩
                rcases List.mem_append.mp hc with hc | hc
                · exact hx₂ hc
                · exact hxn (List.mem_singleton.mp hc)

theorem pushNew_fst_nodup (ns : List Nat) : ∀ cl st : List Nat, cl.Nodup →
    (pushNew (cl, st) ns).1.Nodup := by
  induction ns with
  | nil => intro cl st h; simpa [pushNew] using h
  | cons n ns ih =>
      intro cl st h
      rw [pushNew_cons]
      by_cases hn : n ∈ cl
      · rw [if_pos hn]; exact ih cl st h
      · rw [if_neg hn]
        exact ih _ _ (by simp [List.nodup_append, h, hn])

theorem pushNew_length_eq (ns : List Nat) : ∀ cl st : List Nat,
    (pushNew (cl, st) ns).1.length + st.length
      = (pushNew (cl, st) ns).2.length + cl.length := by
  induction ns with
  | nil => intro cl st; simp [pushNew, Nat.add_comm]
  | cons n ns ih =>
      intro cl st
      rw [pushNew_cons]
      by_cases hn : n ∈ cl
      · rw [if_pos hn]; exact ih cl st
      · rw [if_neg hn]
        have h2 := ih (cl ++ [n]) (n :: st)
        simp only [List.length_append, List.length_cons, List.length_nil] at h2
        omega

theorem pushNew_fst_length_le (ns : List Nat) : ∀ cl st : List Nat,
    cl.length ≤ (pushNew (cl, st) ns).1.length := by
  induction ns with
  | nil => intro cl st; simp [pushNew]
  | cons n ns ih =>
      intro cl st
      rw [pushNew_cons]
      by_cases hn : n ∈ cl
      · rw [if_pos hn]; exact ih cl st
      · rw [if_neg hn]
        calc cl.length ≤ (cl ++ [n]).length := by simp
          _ ≤ _ := ih (cl ++ [n]) (n :: st)

/-! ## ε-reachability and the closure loop -/

theorem EpsReach.comp {nfa : NFA} {x y z : Nat}
    (h₁ : EpsReach nfa x y) (h₂ : EpsReach nfa y z) : EpsReach nfa x z := by
  induction h₂ with
  | refl => exact h₁
  | step _ hm ih => exact EpsReach.step ih hm

theorem lookupT_subset_allTargets (nfa : NFA) (k : Nat × Option Char) (y : Nat)
    (h : y ∈ lookupT nfa k) : y ∈ allTargets nfa := by
  unfold lookupT at h
  cases hg : alistGet nfa.transitions k with
  | none => rw [hg] at h; simp at h
  | some vs =>
      rw [hg] at h
      simp only [Option.getD_some] at h
      have hmem := alistGet_mem _ _ _ hg
      exact List.mem_flatten.mpr ⟨vs, List.mem_map.mpr ⟨(k, vs), hmem, rfl⟩, h⟩

theorem closureLoop_grows (nfa : NFA) : ∀ (fuel : Nat) (cl st : List Nat),
    ∀ x ∈ cl, x ∈ closureLoop nfa fuel cl st := by
  intro fuel
  induction fuel with
  | zero => intro cl st x hx; exact hx
  | succ fuel ih =>
      intro cl st x hx
      cases st with
      | nil => exact hx
      | cons state rest =>
          rw [closureLoop]
          exact ih _ _ x ((pushNew_fst_mem _ _ _ x).mpr (Or.inl hx))

theorem closureLoop_sound (nfa : NFA) (S : List Nat) :
    ∀ (fuel : Nat) (cl st : List Nat),
    (∀ x ∈ st, x ∈ cl) → (∀ x ∈ cl, ∃ s ∈ S, EpsReach nfa s x) →
    ∀ x ∈ closureLoop nfa fuel cl st, ∃ s ∈ S, EpsReach nfa s x := by
  intro fuel
  induction fuel with
  | zero => intro cl st _ hcl x hx; exact hcl x hx
  | succ fuel ih =>
      intro cl st hst hcl x hx
      cases st with
      | nil => exact hcl x hx
      | cons state rest =>
          rw [closureLoop] at hx
          refine ih _ _ ?_ ?_ x hx
          · intro y hy
            rcases (pushNew_snd_mem _ _ _ y).mp hy with hy | ⟨hy, _⟩
            · exact (pushNew_fst_mem _ _ _ y).mpr
                (Or.inl (hst y (List.mem_cons_of_mem _ hy)))
            · exact (pushNew_fst_mem _ _ _ y).mpr (Or.inr hy)
          · intro y hy
            rcases (pushNew_fst_mem _ _ _ y).mp hy with hy | hy
            · exact hcl y hy
            · obtain ⟨s, hs, hr⟩ := hcl state (hst state (List.mem_cons_self _ _))
              exact ⟨s, hs, EpsReach.step hr hy⟩

theorem closureLoop_closed (nfa : NFA) (U : List Nat)
    (hU : ∀ (x y : Nat), y ∈ lookupT nfa (x, none) → y ∈ U) :
    ∀ (fuel : Nat) (cl st : List Nat),
    cl.Nodup → (∀ x ∈ st, x ∈ cl) → (∀ x ∈ cl, x ∈ U) →
    (∀ x ∈ cl, x ∉ st → ∀ y ∈ lookupT nfa (x, none), y ∈ cl) →
    (U.length - cl.length) + st.length < fuel →
    ∀ x ∈ closureLoop nfa fuel cl st, ∀ y ∈ lookupT nfa (x, none),
      y ∈ closureLoop nfa fuel cl st := by
  intro fuel
  induction fuel with
  | zero => intro cl st _ _ _ _ hlt; omega
  | succ fuel ih =>
      intro cl st hnd hst hclU hinv hlt
      cases st with
      | nil =>
          intro x hx y hy
          exact hinv x hx (List.not_mem_nil x) y hy
      | cons state rest =>
          rw [closureLoop]
          set ns := lookupT nfa (state, none) with hns
          have hrest : ∀ x ∈ rest, x ∈ cl := fun x hx => hst x (List.mem_cons_of_mem _ hx)
          have hnd' : (pushNew (cl, rest) ns).1.Nodup := pushNew_fst_nodup ns cl rest hnd
          have hsub' : ∀ x ∈ (pushNew (cl, rest) ns).2, x ∈ (pushNew (cl, rest) ns).1 := by
            intro x hx
            rcases (pushNew_snd_mem _ _ _ x).mp hx with hx | ⟨hx, _⟩
            · exact (pushNew_fst_mem _ _ _ x).mpr (Or.inl (hrest x hx))
            · exact (pushNew_fst_mem _ _ _ x).mpr (Or.inr hx)
          have hU' : ∀ x ∈ (pushNew (cl, rest) ns).1, x ∈ U := by
            intro x hx
            rcases (pushNew_fst_mem _ _ _ x).mp hx with hx | hx
            · exact hclU x hx
            · exact hU state x hx
          have hinv' : ∀ x ∈ (pushNew (cl, rest) ns).1, x ∉ (pushNew (cl, rest) ns).2 →
              ∀ y ∈ lookupT nfa (x, none), y ∈ (pushNew (cl, rest) ns).1 := by
            intro x hx hxst y hy
            rcases (pushNew_fst_mem _ _ _ x).mp hx with hxcl | hxns
            · by_cases hxs : x = state
              · subst hxs
                exact (pushNew_fst_mem _ _ _ y).mpr (Or.inr hy)
              · have hxrest : x ∉ rest := fun hr =>
                  hxst ((pushNew_snd_mem _ _ _ x).mpr (Or.inl hr))
                have hxfull : x ∉ state :: rest := by
                  intro hmem
                  rcases List.mem_cons.mp hmem with h | h
                  · exact hxs h
                  · exact hxrest h
                exact (pushNew_fst_mem _ _ _ y).mpr
                  (Or.inl (hinv x hxcl hxfull y hy))
            · by_cases hxcl : x ∈ cl
              · by_cases hxs : x = state
                · subst hxs
                  exact (pushNew_fst_mem _ _ _ y).mpr (Or.inr hy)
                · have hxrest : x ∉ rest := fun hr =>
                    hxst ((pushNew_snd_mem _ _ _ x).mpr (Or.inl hr))
                  have hxfull : x ∉ state :: rest := by
                    intro hmem
                    rcases List.mem_cons.mp hmem with h | h
                    · exact hxs h
                    · exact hxrest h
                  exact (pushNew_fst_mem _ _ _ y).mpr
                    (Or.inl (hinv x hxcl hxfull y hy))
              · exact absurd ((pushNew_snd_mem _ _ _ x).mpr (Or.inr ⟨hxns, hxcl⟩)) hxst
          have hlt' : (U.length - (pushNew (cl, rest) ns).1.length)
              + (pushNew (cl, rest) ns).2.length < fuel := by
            have hle : cl.length ≤ (pushNew (cl, rest) ns).1.length :=
              pushNew_fst_length_le ns cl rest
            have hcard : (pushNew (cl, rest) ns).1.length ≤ U.length :=
              (List.subperm_of_subset hnd' hU').length_le
            have heq := pushNew_length_eq ns cl rest
            simp only [List.length_cons] at hlt
            omega
          exact ih _ _ hnd' hsub' hU' hinv' hlt'

/-- Characterisation of `epsilon_closure`: exactly the states reachable
from the input set through ε-transitions alone. -/
theorem epsilon_closure_mem (nfa : NFA) (states : List Nat) (x : Nat) :
    x ∈ epsilon_closure nfa states ↔ ∃ s ∈ states, EpsReach nfa s x := by
  constructor
  · intro hx
    refine closureLoop_sound nfa states _ _ _ (fun y hy => hy) ?_ x hx
    intro y hy
    exact ⟨y, List.mem_dedup.mp hy, EpsReach.refl y⟩
  · rintro ⟨s, hs, hr⟩
    have hgrow : ∀ z ∈ states, z ∈ epsilon_closure nfa states := fun z hz =>
      closureLoop_grows nfa _ _ _ z (List.mem_dedup.mpr hz)
    have hclosed : ∀ z ∈ epsilon_closure nfa states, ∀ y ∈ lookupT nfa (z, none),
        y ∈ epsilon_closure nfa states := by
      refine closureLoop_closed nfa (closureUniverse nfa states)
        ?_ _ _ _ (List.nodup_dedup _) (fun z hz => hz) ?_ ?_ ?_
      · intro a y hy
        exact List.mem_dedup.mpr
          (List.mem_append.mpr (Or.inr (lookupT_subset_allTargets nfa _ y hy)))
      · intro z hz
        exact List.mem_dedup.mpr (List.mem_append.mpr (Or.inl hz))
      · intro z hz hzst
        exact absurd hz hzst
      · unfold closureFuel closureUniverse
        omega
    induction hr with
    | refl => exact hgrow s hs
    | step _ hm ih => exact hclosed _ ih _ hm

/-! ## `move_nfa` -/

theorem addNew_mem (ns : List Nat) : ∀ (r : List Nat) (x : Nat),
    x ∈ addNew r ns ↔ x ∈ r ∨ x ∈ ns := by
  induction ns with
  | nil => intro r x; simp [addNew]
  | cons n ns ih =>
      intro r x
      show x ∈ addNew (if n ∈ r then r else r ++ [n]) ns ↔ _
      by_cases h : n ∈ r
      · rw [if_pos h, ih]
        constructor
        · rintro (hx | hx)
          · exact Or.inl hx
          · exact Or.inr (List.mem_cons_of_mem _ hx)
        · rintro (hx | hx)
          · exact Or.inl hx
          · rcases List.mem_cons.mp hx with rfl | hx
            · exact Or.inl h
            · exact Or.inr hx
      · rw [if_neg h, ih]
        constructor
        · rintro (hx | hx)
          · rcases List.mem_append.mp hx with hx | hx
            · exact Or.inl hx
            · exact Or.inr (List.mem_cons.mpr (Or.inl (List.mem_singleton.mp hx)))
          · exact Or.inr (List.mem_cons_of_mem _ hx)
        · rintro (hx | hx)
          · exact Or.inl (List.mem_append.mpr (Or.inl hx))
          · rcases List.mem_cons.mp hx with rfl | hx
            · exact Or.inl (List.mem_append.mpr (Or.inr (List.mem_singleton.mpr rfl)))
            · exact Or.inr hx

theorem move_nfa_foldl_mem (nfa : NFA) (symbol : Char) (states : List Nat) :
    ∀ (r : List Nat) (x : Nat),
    x ∈ states.foldl (fun r state => addNew r (lookupT nfa (state, some symbol))) r
      ↔ x ∈ r ∨ ∃ s ∈ states, x ∈ lookupT nfa (s, some symbol) := by
  induction states with
  | nil => intro r x; simp
  | cons s₀ states ih =>
      intro r x
      rw [List.foldl_cons, ih, addNew_mem]
      constructor
      · rintro ((hx | hx) | ⟨s, hs, hx⟩)
        · exact Or.inl hx
        · exact Or.inr ⟨s₀, List.mem_cons_self _ _, hx⟩
        · exact Or.inr ⟨s, List.mem_cons_of_mem _ hs, hx⟩
      · rintro (hx | ⟨s, hs, hx⟩)
        · exact Or.inl (Or.inl hx)
        · rcases List.mem_cons.mp hs with rfl | hs
          · exact Or.inl (Or.inr hx)
          · exact Or.inr ⟨s, hs, hx⟩

theorem move_nfa_mem (nfa : NFA) (states : List Nat) (symbol : Char) (x : Nat) :
    x ∈ move_nfa nfa states symbol ↔ ∃ s ∈ states, x ∈ lookupT nfa (s, some symbol) := by
  unfold move_nfa
  rw [move_nfa_foldl_mem]
  simp

/-! ## The CSV transition reader -/

theorem readRowStep_three (ts : List ((Int × Option Char) × List Int))
    (c0 c1 c2 : String) :
    readRowStep ts [c0, c1, c2]
      = if pyCommentStart (pyStrip c0) then ts
        else match pyInt? (pyStrip c0), pyInt? (pyStrip c2) with
          | some frm, some t => appendAt ts (frm, (pyStrip c1).toList.head?) t
          | _, _ => ts := rfl

theorem readRowStep_of_skipped (ts : List ((Int × Option Char) × List Int))
    (row : List String) (h : skippedRow row = true) : readRowStep ts row = ts := by
  match row with
  | [] =>
      unfold readRowStep
      split <;> rfl
  | [c0] =>
      unfold readRowStep
      split <;> rfl
  | [c0, c1] =>
      unfold readRowStep
      split <;> rfl
  | c0 :: c1 :: c2 :: c3 :: rest =>
      unfold readRowStep
      split <;> rfl
  | [c0, c1, c2] =>
      rw [readRowStep_three]
      unfold skippedRow at h
      simp only [List.headD_cons, Bool.or_eq_true, Option.isNone_iff_eq_none] at h
      rcases h with h | h
      · rw [if_pos h]
      · rcases h with h | h
        · split
          · rfl
          · rw [h]
        · split
          · rfl
          · rw [h]
            cases pyInt? (pyStrip c0) <;> rfl

theorem read_foldl_filter (rows : List (List String)) :
    ∀ ts : List ((Int × Option Char) × List Int),
    rows.foldl readRowStep ts
      = (rows.filter (fun r => ! skippedRow r)).foldl readRowStep ts := by
  induction rows with
  | nil => intro ts; rfl
  | cons row rows ih =>
      intro ts
      by_cases h : skippedRow row = true
      · rw [List.foldl_cons, readRowStep_of_skipped ts row h, List.filter_cons,
          if_neg (by simp [h]), ih]
      · rw [List.foldl_cons, List.filter_cons, if_pos (by simp [Bool.eq_false_iff.mpr h]),
          List.foldl_cons, ih]

theorem readRowStep_of_wellformed (ts : List ((Int × Option Char) × List Int))
    (c0 c1 c2 : String) (frm t : Int)
    (h0 : pyInt? (pyStrip c0) = some frm) (h2 : pyInt? (pyStrip c2) = some t)
    (hc : pyCommentStart (pyStrip c0) = false) :
    readRowStep ts [c0, c1, c2] = appendAt ts (frm, (pyStrip c1).toList.head?) t := by
  rw [readRowStep_three, if_neg (by simp [hc]), h0, h2]

/-! ## `canon` -/

theorem canon_sorted (l : List Nat) : List.Sorted (· ≤ ·) (canon l) :=
  List.sorted_insertionSort _ _

theorem canon_nodup (l : List Nat) : (canon l).Nodup :=
  ((List.perm_insertionSort _ _).nodup_iff).mpr (List.nodup_dedup l)

theorem canon_mem (l : List Nat) (x : Nat) : x ∈ canon l ↔ x ∈ l := by
  unfold canon
  rw [(List.perm_insertionSort (· ≤ ·) l.dedup).mem_iff, List.mem_dedup]

theorem sorted_nodup_ext {c d : List Nat}
    (hcs : List.Sorted (· ≤ ·) c) (hds : List.Sorted (· ≤ ·) d)
    (hcn : c.Nodup) (hdn : d.Nodup) (h : ∀ x, x ∈ c ↔ x ∈ d) : c = d :=
  List.eq_of_perm_of_sorted ((List.perm_ext_iff_of_nodup hcn hdn).mpr h) hcs hds

theorem canon_eq_of_ext (l₁ l₂ : List Nat) (h : ∀ x, x ∈ l₁ ↔ x ∈ l₂) :
    canon l₁ = canon l₂ :=
  sorted_nodup_ext (canon_sorted l₁) (canon_sorted l₂) (canon_nodup l₁) (canon_nodup l₂)
    (fun x => by rw [canon_mem, canon_mem]; exact h x)

/-! ## The construction invariant -/

theorem inter_ne_nil_iff (l m : List Nat) : l.inter m ≠ [] ↔ ∃ x ∈ l, x ∈ m := by
  rw [Ne, List.eq_nil_iff_forall_not_mem]
  push_neg
  constructor
  · rintro ⟨x, hx⟩
    exact ⟨x, List.mem_inter_iff.mp hx⟩
  · rintro ⟨x, h1, h2⟩
    exact ⟨x, List.mem_inter_iff.mpr ⟨h1, h2⟩⟩

/-- Case analysis of one `symbolStep`: either the move set is empty and
nothing changes, or the target subset is known and only a transition is
recorded, or it is new and registered with the next id. -/
theorem symbolStep_spec (nfa : NFA) (io : List Nat → List Nat) (ci : Nat)
    (cs : List Nat) (s : ConvState) (sym : Char) :
    (move_nfa nfa cs sym = [] ∧ symbolStep nfa io ci cs s sym = s) ∨
    (move_nfa nfa cs sym ≠ [] ∧
      ∃ nc, nc = canon (epsilon_closure nfa (move_nfa nfa cs sym)) ∧
      ((∃ j, alistGet s.stateMapping nc = some j ∧
          symbolStep nfa io ci cs s sym
            = { s with dfaTransitions := dictSet s.dfaTransitions (ci, sym) j }) ∨
       (alistGet s.stateMapping nc = none ∧
          symbolStep nfa io ci cs s sym =
            { dfaTransitions := dictSet s.dfaTransitions (ci, sym) s.dfaStates.length
              dfaAccept :=
                if (nc.inter (acceptKeys nfa)) ≠ [] then
                  dictSet s.dfaAccept s.dfaStates.length (labelJoin nfa io nc)
                else s.dfaAccept
              stateMapping := s.stateMapping ++ [(nc, s.dfaStates.length)]
              dfaStates := s.dfaStates ++ [nc]
              queue := s.queue ++ [s.dfaStates.length] }))) := by
  by_cases hm : move_nfa nfa cs sym = []
  · left
    refine ⟨hm, ?_⟩
    unfold symbolStep
    rw [if_pos hm]
  · right
    refine ⟨hm, _, rfl, ?_⟩
    cases hg : alistGet s.stateMapping (canon (epsilon_closure nfa (move_nfa nfa cs sym))) with
    | some j =>
        left
        refine ⟨j, rfl, ?_⟩
        unfold symbolStep
        rw [if_neg hm]
        show (match alistGet s.stateMapping
            (canon (epsilon_closure nfa (move_nfa nfa cs sym))) with
          | some nextIndex =>
              { s with dfaTransitions := dictSet s.dfaTransitions (ci, sym) nextIndex }
          | none => _) = _
        rw [hg]
    | none =>
        right
        refine ⟨rfl, ?_⟩
        unfold symbolStep
        rw [if_neg hm]
        show (match alistGet s.stateMapping
            (canon (epsilon_closure nfa (move_nfa nfa cs sym))) with
          | some nextIndex =>
              { s with dfaTransitions := dictSet s.dfaTransitions (ci, sym) nextIndex }
          | none => _) = _
        rw [hg]

theorem ConvInv.mapping_keys {nfa : NFA} {io : List Nat → List Nat} {s : ConvState}
    (h : ConvInv nfa io s) : s.stateMapping.map (·.1) = s.dfaStates := by
  rw [h.map_eq, List.map_map]
  have hcomp : ((·.1) ∘ fun p : Nat × List Nat => (p.2, p.1)) = Prod.snd := rfl
  rw [hcomp, List.enum_map_snd]

theorem ConvInv.mem_mapping_iff {nfa : NFA} {io : List Nat → List Nat} {s : ConvState}
    (h : ConvInv nfa io s) (c : List Nat) (i : Nat) :
    (c, i) ∈ s.stateMapping ↔ s.dfaStates[i]? = some c := by
  rw [h.map_eq]
  constructor
  · intro hm
    obtain ⟨⟨j, d⟩, hp, hpe⟩ := List.mem_map.mp hm
    simp only [Prod.mk.injEq] at hpe
    obtain ⟨rfl, rfl⟩ := hpe
    exact List.mem_enum_iff_getElem?.mp hp
  · intro hg
    exact List.mem_map.mpr ⟨(i, c), List.mem_enum_iff_getElem?.mpr hg, rfl⟩

theorem ConvInv.symbolStep_inv {nfa : NFA} {io : List Nat → List Nat} {s : ConvState}
    (h : ConvInv nfa io s) (ci : Nat) (cs : List Nat) (sym : Char) :
    ConvInv nfa io (symbolStep nfa io ci cs s sym) := by
  rcases symbolStep_spec nfa io ci cs s sym with ⟨_, heq⟩ |
    ⟨_, nc, hnc, ⟨j, _, heq⟩ | ⟨hnone, heq⟩⟩
  · rw [heq]; exact h
  · rw [heq]
    exact ⟨h.map_eq, h.states_nodup, h.states_canon, h.accept_bound,
      h.accept_keys_nodup, h.accept_iff, h.accept_label⟩
  · have hnotin : nc ∉ s.dfaStates := by
      intro hmem
      rw [← h.mapping_keys] at hmem
      exact (alistGet_eq_none_iff _ _).mp hnone hmem
    have hcs : List.Sorted (· ≤ ·) nc := by rw [hnc]; exact canon_sorted _
    have hcn : nc.Nodup := by rw [hnc]; exact canon_nodup _
    have hLnot : s.dfaStates.length ∉ s.dfaAccept.map (·.1) := by
      intro hmem
      obtain ⟨p, hp, hpe⟩ := List.mem_map.mp hmem
      have := h.accept_bound p hp
      omega
    have hmap' : s.stateMapping ++ [(nc, s.dfaStates.length)]
        = (s.dfaStates ++ [nc]).enum.map (fun p => (p.2, p.1)) := by
      rw [List.enum_append, List.map_append, ← h.map_eq]
      rfl
    have hnd' : (s.dfaStates ++ [nc]).Nodup := by
      refine List.nodup_append.mpr ⟨h.states_nodup, List.nodup_singleton _, ?_⟩
      intro a ha hb
      rw [List.mem_singleton] at hb
      subst hb
      exact hnotin ha
    have hcanon' : ∀ c ∈ s.dfaStates ++ [nc], List.Sorted (· ≤ ·) c ∧ c.Nodup := by
      intro c hc
      rcases List.mem_append.mp hc with hc | hc
      · exact h.states_canon c hc
      · rw [List.mem_singleton] at hc
        subst hc
        exact ⟨hcs, hcn⟩
    by_cases hint : (nc.inter (acceptKeys nfa)) ≠ []
    · rw [if_pos hint, dictSet_of_not_mem _ _ _ hLnot] at heq
      rw [heq]
      refine ⟨hmap', hnd', hcanon', ?_, ?_, ?_, ?_⟩
      · intro p hp
        rcases List.mem_append.mp hp with hp | hp
        · have := h.accept_bound p hp
          simp only [List.length_append, List.length_singleton]
          omega
        · rw [List.mem_singleton] at hp
          subst hp
          simp
      · rw [List.map_append]
        have hone : List.map (·.1) [(s.dfaStates.length, labelJoin nfa io nc)]
            = [s.dfaStates.length] := rfl
        rw [hone]
        refine List.nodup_append.mpr ⟨h.accept_keys_nodup, List.nodup_singleton _, ?_⟩
        intro a ha hb
        rw [List.mem_singleton] at hb
        subst hb
        exact hLnot ha
      · intro i c hic
        have hlen : i < s.dfaStates.length + 1 := by
          have := (List.getElem?_eq_some.mp hic).1
          simpa using this
        by_cases hiL : i = s.dfaStates.length
        · subst hiL
          rw [List.getElem?_concat_length] at hic
          obtain rfl : nc = c := Option.some.inj hic
          constructor
          · intro _
            exact (inter_ne_nil_iff nc (acceptKeys nfa)).mp hint
          · intro _
            exact ⟨labelJoin nfa io nc,
              List.mem_append.mpr (Or.inr (List.mem_singleton.mpr rfl))⟩
        · have hilt : i < s.dfaStates.length := by omega
          rw [List.getElem?_append_left hilt] at hic
          rw [← h.accept_iff i c hic]
          constructor
          · rintro ⟨lbl, hl⟩
            rcases List.mem_append.mp hl with hl | hl
            · exact ⟨lbl, hl⟩
            · rw [List.mem_singleton, Prod.mk.injEq] at hl
              exact absurd hl.1 hiL
          · rintro ⟨lbl, hl⟩
            exact ⟨lbl, List.mem_append.mpr (Or.inl hl)⟩
      · intro i lbl hl c hic
        rcases List.mem_append.mp hl with hl | hl
        · have hi : i < s.dfaStates.length := h.accept_bound (i, lbl) hl
          rw [List.getElem?_append_left hi] at hic
          exact h.accept_label i lbl hl c hic
        · rw [List.mem_singleton, Prod.mk.injEq] at hl
          obtain ⟨rfl, rfl⟩ := hl
          rw [List.getElem?_concat_length] at hic
          obtain rfl : nc = c := Option.some.inj hic
          rfl
    · rw [if_neg hint] at heq
      rw [heq]
      refine ⟨hmap', hnd', hcanon', ?_, h.accept_keys_nodup, ?_, ?_⟩
      · intro p hp
        have := h.accept_bound p hp
        simp only [List.length_append, List.length_singleton]
        omega
      · intro i c hic
        by_cases hiL : i = s.dfaStates.length
        · subst hiL
          rw [List.getElem?_concat_length] at hic
          obtain rfl : nc = c := Option.some.inj hic
          constructor
          · rintro ⟨lbl, hl⟩
            exact absurd (h.accept_bound _ hl) (lt_irrefl _)
          · intro hx
            exact absurd ((inter_ne_nil_iff nc (acceptKeys nfa)).mpr hx) hint
        · have hlen : i < s.dfaStates.length + 1 := by
            have := (List.getElem?_eq_some.mp hic).1
            simpa using this
          have hilt : i < s.dfaStates.length := by omega
          rw [List.getElem?_append_left hilt] at hic
          exact h.accept_iff i c hic
      · intro i lbl hl c hic
        have hi : i < s.dfaStates.length := h.accept_bound (i, lbl) hl
        rw [List.getElem?_append_left hi] at hic
        exact h.accept_label i lbl hl c hic

theorem convertInit_eq (nfa : NFA) (io : List Nat → List Nat) :
    convertInit nfa io =
      { dfaTransitions := []
        dfaAccept :=
          if ((canon (epsilon_closure nfa [nfa.start])).inter (acceptKeys nfa)) ≠ [] then
            [(0, labelJoin nfa io (canon (epsilon_closure nfa [nfa.start])))]
          else []
        stateMapping := [(canon (epsilon_closure nfa [nfa.start]), 0)]
        dfaStates := [canon (epsilon_closure nfa [nfa.start])]
        queue := [0] } := rfl

theorem ConvInv.initial (nfa : NFA) (io : List Nat → List Nat) :
    ConvInv nfa io (convertInit nfa io) := by
  rw [convertInit_eq]
  set sc := canon (epsilon_closure nfa [nfa.start]) with hsc
  have hget : ∀ (i : Nat) (c : List Nat), ([sc] : List (List Nat))[i]? = some c →
      i = 0 ∧ c = sc := by
    intro i c hic
    obtain ⟨hlt, hval⟩ := List.getElem?_eq_some.mp hic
    simp only [List.length_singleton] at hlt
    interval_cases i
    · simp only [List.getElem_singleton] at hval
      exact ⟨rfl, hval.symm⟩
  by_cases hint : (sc.inter (acceptKeys nfa)) ≠ []
  · rw [if_pos hint]
    refine ⟨rfl, List.nodup_singleton _, ?_, ?_, ?_, ?_, ?_⟩
    · intro c hc
      rw [List.mem_singleton] at hc
      subst hc
      exact ⟨canon_sorted _, canon_nodup _⟩
    · intro p hp
      rw [List.mem_singleton] at hp
      subst hp
      simp
    · simp
    · intro i c hic
      obtain ⟨rfl, rfl⟩ := hget i c hic
      constructor
      · intro _
        exact (inter_ne_nil_iff _ _).mp hint
      · intro _
        exact ⟨labelJoin nfa io sc, List.mem_singleton.mpr rfl⟩
    · intro i lbl hl c hic
      rw [List.mem_singleton, Prod.mk.injEq] at hl
      obtain ⟨rfl, rfl⟩ := hl
      obtain ⟨-, rfl⟩ := hget 0 c hic
      rfl
  · rw [if_neg hint]
    refine ⟨rfl, List.nodup_singleton _, ?_, ?_, ?_, ?_, ?_⟩
    · intro c hc
      rw [List.mem_singleton] at hc
      subst hc
      exact ⟨canon_sorted _, canon_nodup _⟩
    · intro p hp
      simp at hp
    · simp
    · intro i c hic
      obtain ⟨rfl, rfl⟩ := hget i c hic
      constructor
      · rintro ⟨lbl, hl⟩
        simp at hl
      · intro hx
        exact absurd ((inter_ne_nil_iff _ _).mpr hx) hint
    · intro i lbl hl c hic
      simp at hl

theorem ConvInv.queue_set {nfa : NFA} {io : List Nat → List Nat} {s : ConvState}
    (h : ConvInv nfa io s) (q : List Nat) : ConvInv nfa io { s with queue := q } :=
  ⟨h.map_eq, h.states_nodup, h.states_canon, h.accept_bound, h.accept_keys_nodup,
    h.accept_iff, h.accept_label⟩

theorem ConvInv.foldl_inv {nfa : NFA} {io : List Nat → List Nat} (alphabet : List Char) :
    ∀ (s : ConvState), ConvInv nfa io s → ∀ (ci : Nat) (cs : List Nat),
    ConvInv nfa io (alphabet.foldl (symbolStep nfa io ci cs) s) := by
  induction alphabet with
  | nil => intro s h ci cs; exact h
  | cons a rest ih =>
      intro s h ci cs
      exact ih _ (h.symbolStep_inv ci cs a) ci cs

theorem ConvInv.loop_inv {nfa : NFA} {io : List Nat → List Nat} (alphabet : List Char) :
    ∀ (fuel : Nat) (s : ConvState), ConvInv nfa io s →
    ConvInv nfa io (convertLoop nfa alphabet io fuel s) := by
  intro fuel
  induction fuel with
  | zero => intro s h; exact h
  | succ fuel ih =>
      intro s h
      rw [convertLoop]
      cases hq : s.queue with
      | nil => exact h
      | cons ci rest =>
          exact ih _ (ConvInv.foldl_inv alphabet _ (h.queue_set rest) ci
            (s.dfaStates.getD ci []))

theorem ConvInv.runInv (nfa : NFA) (alphabet : List Char) (io : List Nat → List Nat)
    (fuel : Nat) : ConvInv nfa io (convertRun nfa alphabet io fuel) :=
  ConvInv.loop_inv alphabet fuel _ (ConvInv.initial nfa io)

/-! ## Stability of the discovery map across a run -/

theorem symbolStep_mapping_extend (nfa : NFA) (io : List Nat → List Nat) (ci : Nat)
    (cs : List Nat) (s : ConvState) (sym : Char) :
    ∃ ext, (symbolStep nfa io ci cs s sym).stateMapping = s.stateMapping ++ ext := by
  rcases symbolStep_spec nfa io ci cs s sym with ⟨_, heq⟩ |
    ⟨_, nc, _, ⟨j, _, heq⟩ | ⟨_, heq⟩⟩
  · exact ⟨[], by rw [heq, List.append_nil]⟩
  · exact ⟨[], by rw [heq, List.append_nil]⟩
  · exact ⟨[(nc, s.dfaStates.length)], by rw [heq]⟩

theorem foldl_mapping_extend (nfa : NFA) (io : List Nat → List Nat)
    (alphabet : List Char) : ∀ (s : ConvState) (ci : Nat) (cs : List Nat),
    ∃ ext, (alphabet.foldl (symbolStep nfa io ci cs) s).stateMapping
      = s.stateMapping ++ ext := by
  induction alphabet with
  | nil => intro s ci cs; exact ⟨[], by rw [List.append_nil]; rfl⟩
  | cons a rest ih =>
      intro s ci cs
      obtain ⟨e₁, h₁⟩ := symbolStep_mapping_extend nfa io ci cs s a
      obtain ⟨e₂, h₂⟩ := ih (symbolStep nfa io ci cs s a) ci cs
      exact ⟨e₁ ++ e₂, by rw [List.foldl_cons, h₂, h₁, List.append_assoc]⟩

theorem convertLoop_mapping_extend (nfa : NFA) (alphabet : List Char)
    (io : List Nat → List Nat) : ∀ (fuel : Nat) (s : ConvState),
    ∃ ext, (convertLoop nfa alphabet io fuel s).stateMapping = s.stateMapping ++ ext := by
  intro fuel
  induction fuel with
  | zero => intro s; exact ⟨[], by rw [List.append_nil]; rfl⟩
  | succ fuel ih =>
      intro s
      rw [convertLoop]
      cases hq : s.queue with
      | nil => exact ⟨[], by rw [List.append_nil]⟩
      | cons ci rest =>
          obtain ⟨e₁, h₁⟩ := foldl_mapping_extend nfa io alphabet
            { s with queue := rest } ci (s.dfaStates.getD ci [])
          obtain ⟨e₂, h₂⟩ := ih (alphabet.foldl
            (symbolStep nfa io ci (s.dfaStates.getD ci [])) { s with queue := rest })
          exact ⟨e₁ ++ e₂, by rw [h₂, h₁, List.append_assoc]⟩

theorem convertLoop_stall (nfa : NFA) (alphabet : List Char) (io : List Nat → List Nat) :
    ∀ (fuel : Nat) (s : ConvState), s.queue = [] →
    convertLoop nfa alphabet io fuel s = s := by
  intro fuel
  induction fuel with
  | zero => intro s _; rfl
  | succ fuel _ =>
      intro s hq
      rw [convertLoop, hq]

theorem convertLoop_add (nfa : NFA) (alphabet : List Char) (io : List Nat → List Nat) :
    ∀ (f k : Nat) (s : ConvState),
    convertLoop nfa alphabet io (f + k) s
      = convertLoop nfa alphabet io k (convertLoop nfa alphabet io f s) := by
  intro f
  induction f with
  | zero => intro k s; rw [Nat.zero_add]; rfl
  | succ f ih =>
      intro k s
      have hfk : f + 1 + k = (f + k) + 1 := by omega
      rw [hfk, convertLoop]
      cases hq : s.queue with
      | nil =>
          rw [show convertLoop nfa alphabet io (f + 1) s = s from
            convertLoop_stall nfa alphabet io (f + 1) s hq,
            convertLoop_stall nfa alphabet io k s hq]
      | cons ci rest =>
          have hstep : convertLoop nfa alphabet io (f + 1) s
              = convertLoop nfa alphabet io f
                  (alphabet.foldl (symbolStep nfa io ci (s.dfaStates.getD ci []))
                    { s with queue := rest }) := by
            rw [convertLoop, hq]
          rw [hstep, ← ih]

/-- The state of a run after `f` iterations: every discovery-map entry
survives to any later point of the same run. -/
theorem convertRun_mapping_mono (nfa : NFA) (alphabet : List Char)
    (io : List Nat → List Nat) (f f' : Nat) (hf : f ≤ f') :
    ∀ p ∈ (convertRun nfa alphabet io f).stateMapping,
      p ∈ (convertRun nfa alphabet io f').stateMapping := by
  intro p hp
  obtain ⟨k, rfl⟩ := Nat.exists_eq_add_of_le hf
  unfold convertRun
  rw [convertLoop_add]
  obtain ⟨ext, hext⟩ := convertLoop_mapping_extend nfa alphabet io k
    (convertLoop nfa alphabet io f (convertInit nfa io))
  rw [hext]
  exact List.mem_append.mpr (Or.inl hp)

/-! ## Independence from the `frozenset` iteration order -/

theorem NonLabelEq.symbolStep_congr (nfa : NFA) (io₁ io₂ : List Nat → List Nat)
    (ci : Nat) (cs : List Nat) (s₁ s₂ : ConvState) (sym : Char) (h : NonLabelEq s₁ s₂) :
    NonLabelEq (symbolStep nfa io₁ ci cs s₁ sym) (symbolStep nfa io₂ ci cs s₂ sym) := by
  obtain ⟨ht, hm, hs, hq, ha⟩ := h
  rcases symbolStep_spec nfa io₁ ci cs s₁ sym with ⟨hmov, he₁⟩ |
    ⟨hmov, nc, hnc, hb₁⟩
  · rcases symbolStep_spec nfa io₂ ci cs s₂ sym with ⟨_, he₂⟩ | ⟨hmov₂, _⟩
    · rw [he₁, he₂]; exact ⟨ht, hm, hs, hq, ha⟩
    · exact absurd hmov hmov₂
  · rcases symbolStep_spec nfa io₂ ci cs s₂ sym with ⟨hmov₂, _⟩ |
      ⟨_, nc₂, hnc₂, hb₂⟩
    · exact absurd hmov₂ hmov
    · have hncnc : nc₂ = nc := by rw [hnc, hnc₂]
      rw [hncnc] at hb₂
      rcases hb₁ with ⟨j, hj₁, he₁⟩ | ⟨hn₁, he₁⟩
      · rcases hb₂ with ⟨j₂, hj₂, he₂⟩ | ⟨hn₂, he₂⟩
        · have hjj : some j = some j₂ := by rw [← hj₁, ← hj₂, hm]
          obtain rfl := Option.some.inj hjj
          rw [he₁, he₂]
          exact ⟨by rw [ht], hm, hs, hq, ha⟩
        · rw [hm, hn₂] at hj₁
          cases hj₁
      · rcases hb₂ with ⟨j₂, hj₂, he₂⟩ | ⟨_, he₂⟩
        · rw [hm, hj₂] at hn₁
          cases hn₁
        · rw [he₁, he₂]
          refine ⟨by rw [ht, hs], by rw [hm, hs], by rw [hs], by rw [hq, hs], ?_⟩
          by_cases hint : (nc.inter (acceptKeys nfa)) ≠ []
          · rw [if_pos hint, if_pos hint]
            rw [hs]
            exact dictSet_map_fst_congr _ _ _ _ _ ha
          · rw [if_neg hint, if_neg hint]
            exact ha

theorem NonLabelEq.foldl_congr (nfa : NFA) (io₁ io₂ : List Nat → List Nat)
    (alphabet : List Char) : ∀ (s₁ s₂ : ConvState) (ci : Nat) (cs : List Nat),
    NonLabelEq s₁ s₂ →
    NonLabelEq (alphabet.foldl (symbolStep nfa io₁ ci cs) s₁)
      (alphabet.foldl (symbolStep nfa io₂ ci cs) s₂) := by
  induction alphabet with
  | nil => intro s₁ s₂ ci cs h; exact h
  | cons a rest ih =>
      intro s₁ s₂ ci cs h
      exact ih _ _ ci cs (h.symbolStep_congr nfa io₁ io₂ ci cs s₁ s₂ a)

theorem NonLabelEq.loop_congr (nfa : NFA) (io₁ io₂ : List Nat → List Nat)
    (alphabet : List Char) : ∀ (fuel : Nat) (s₁ s₂ : ConvState), NonLabelEq s₁ s₂ →
    NonLabelEq (convertLoop nfa alphabet io₁ fuel s₁)
      (convertLoop nfa alphabet io₂ fuel s₂) := by
  intro fuel
  induction fuel with
  | zero => intro s₁ s₂ h; exact h
  | succ fuel ih =>
      intro s₁ s₂ h
      obtain ⟨ht, hm, hs, hq, ha⟩ := h
      rw [convertLoop, convertLoop, ← hq]
      cases hqq : s₁.queue with
      | nil => exact ⟨ht, hm, hs, hq, ha⟩
      | cons ci rest =>
          show NonLabelEq
            (convertLoop nfa alphabet io₁ fuel
              (alphabet.foldl (symbolStep nfa io₁ ci (s₁.dfaStates.getD ci []))
                { s₁ with queue := rest }))
            (convertLoop nfa alphabet io₂ fuel
              (alphabet.foldl (symbolStep nfa io₂ ci (s₂.dfaStates.getD ci []))
                { s₂ with queue := rest }))
          rw [show s₂.dfaStates.getD ci [] = s₁.dfaStates.getD ci [] from by rw [hs]]
          exact ih _ _ (NonLabelEq.foldl_congr nfa io₁ io₂ alphabet _ _ ci _
            ⟨ht, hm, hs, rfl, ha⟩)

theorem NonLabelEq.initial_congr (nfa : NFA) (io₁ io₂ : List Nat → List Nat) :
    NonLabelEq (convertInit nfa io₁) (convertInit nfa io₂) := by
  rw [convertInit_eq, convertInit_eq]
  refine ⟨rfl, rfl, rfl, rfl, ?_⟩
  by_cases hint : ((canon (epsilon_closure nfa [nfa.start])).inter (acceptKeys nfa)) ≠ []
  · rw [if_pos hint, if_pos hint]
    rfl
  · rw [if_neg hint, if_neg hint]

theorem NonLabelEq.run_congr (nfa : NFA) (alphabet : List Char)
    (io₁ io₂ : List Nat → List Nat) (fuel : Nat) :
    NonLabelEq (convertRun nfa alphabet io₁ fuel) (convertRun nfa alphabet io₂ fuel) :=
  NonLabelEq.loop_congr nfa io₁ io₂ alphabet fuel _ _ (NonLabelEq.initial_congr nfa io₁ io₂)

theorem memOfGetElem {α : Type} (l : List α) (i : Nat) (a : α) (h : l[i]? = some a) :
    a ∈ l := by
  obtain ⟨hlt, rfl⟩ := List.getElem?_eq_some.mp h
  exact List.getElem_mem hlt

/-! ## The claims -/

/-- **C1** (counterexample): the accept label written by the
construction follows the `frozenset` iteration order.  With the
iteration order reversed — a legitimate enumeration of the same
two-element set `{1, 2}` — DFA state 1 is labelled `"B, A"`, while the
ascending-NFA-id join of the same StateSet is `"A, B"`.  So the label
is not always the ascending-id join and does depend on the set
iteration order. -/
theorem C1_counterexample :
    (convert_nfa_to_dfa twoLabelNFA ['a'] List.reverse).accept = [(1, "B, A")] ∧
    String.intercalate ", " (([1, 2] : List Nat).filterMap
      (fun s => alistGet twoLabelNFA.accept s)) = "A, B" ∧
    ("B, A" : String) ≠ "A, B" := by
  refine ⟨?_, ?_, ?_⟩ <;> decide

/-- **C1** (amended): every constructed DFA accept label equals the
labels of the NFA accept states contained in that state's StateSet,
joined with `", "` in the `frozenset` iteration order `io`; the
StateSet itself is kept sorted by ascending NFA state id, so the label
is the ascending-id join exactly when `io` enumerates the canonical
set in order (e.g. `io = id`), but it does depend on `io`. -/
theorem C1_label_join (nfa : NFA) (alphabet : List Char) (io : List Nat → List Nat)
    (i : Nat) (lbl : String) (c : List Nat)
    (hc : (convert_nfa_to_dfa_full nfa alphabet io).dfaStates[i]? = some c)
    (hl : (i, lbl) ∈ (convert_nfa_to_dfa_full nfa alphabet io).dfaAccept) :
    List.Sorted (· ≤ ·) c ∧
      lbl = String.intercalate ", " ((io c).filterMap (fun s => alistGet nfa.accept s)) := by
  have h := ConvInv.runInv nfa alphabet io (convertFuel nfa)
  exact ⟨(h.states_canon c (memOfGetElem _ i c hc)).1, h.accept_label i lbl hl c hc⟩

theorem C1_label_join_witness :
    (convert_nfa_to_dfa_full twoLabelNFA ['a'] id).dfaStates[1]? = some [1, 2] ∧
    (1, "A, B") ∈ (convert_nfa_to_dfa_full twoLabelNFA ['a'] id).dfaAccept ∧
    (List.Sorted (· ≤ ·) ([1, 2] : List Nat) ∧
      "A, B" = String.intercalate ", " ((id ([1, 2] : List Nat)).filterMap
        (fun s => alistGet twoLabelNFA.accept s))) :=
  ⟨by decide, by decide,
    C1_label_join twoLabelNFA ['a'] id 1 "A, B" [1, 2] (by decide) (by decide)⟩

/-- **C2**: the construction is a deterministic function of the NFA
and the alphabet ordering: the transition table, the discovered
subsets (hence the DFA state numbering) and the accept-id list do not
depend on the `frozenset` iteration order at all, and two runs with
the same iteration order (as within one interpreter) agree byte for
byte. -/
theorem C2_deterministic (nfa : NFA) (alphabet : List Char)
    (io₁ io₂ : List Nat → List Nat) :
    (convert_nfa_to_dfa_full nfa alphabet io₁).dfaTransitions
      = (convert_nfa_to_dfa_full nfa alphabet io₂).dfaTransitions ∧
    (convert_nfa_to_dfa_full nfa alphabet io₁).dfaStates
      = (convert_nfa_to_dfa_full nfa alphabet io₂).dfaStates ∧
    (convert_nfa_to_dfa_full nfa alphabet io₁).dfaAccept.map (·.1)
      = (convert_nfa_to_dfa_full nfa alphabet io₂).dfaAccept.map (·.1) ∧
    ((∀ l, io₁ l = io₂ l) →
      convert_nfa_to_dfa nfa alphabet io₁ = convert_nfa_to_dfa nfa alphabet io₂) := by
  obtain ⟨ht, hm, hs, hq, ha⟩ := NonLabelEq.run_congr nfa alphabet io₁ io₂ (convertFuel nfa)
  refine ⟨ht, hs, ha, ?_⟩
  intro hio
  rw [funext hio]

theorem C2_deterministic_witness :
    (∀ l : List Nat, id l = id l) ∧
    convert_nfa_to_dfa exampleNFA ['a', 'b'] id
      = convert_nfa_to_dfa exampleNFA ['a', 'b'] id :=
  ⟨fun _ => rfl, (C2_deterministic exampleNFA ['a', 'b'] id id).2.2.2 (fun _ => rfl)⟩

/-- **C3**: on the spec's concrete scenario (`exampleNFA`, alphabet
`a < b`) the construction yields exactly three DFA states
`{0,1} / {2,3} / {4}`, transitions `(0,'a')→1` and `(1,'b')→2` and no
others, and accept mapping `{2 ↦ "accept"}`. -/
theorem C3_concrete_scenario :
    (convert_nfa_to_dfa_full exampleNFA ['a', 'b'] id).dfaStates
      = [[0, 1], [2, 3], [4]] ∧
    (convert_nfa_to_dfa_full exampleNFA ['a', 'b'] id).dfaTransitions
      = [((0, 'a'), 1), ((1, 'b'), 2)] ∧
    (convert_nfa_to_dfa_full exampleNFA ['a', 'b'] id).dfaAccept = [(2, "accept")] := by
  refine ⟨?_, ?_, ?_⟩ <;> decide

/-- **C4**: a discovered DFA state id is a key of `dfa.accept` iff its
StateSet meets the NFA accept states. -/
theorem C4_accept_iff_intersects (nfa : NFA) (alphabet : List Char)
    (io : List Nat → List Nat) (i : Nat) (c : List Nat)
    (hc : (convert_nfa_to_dfa_full nfa alphabet io).dfaStates[i]? = some c) :
    (alistGet (convert_nfa_to_dfa_full nfa alphabet io).dfaAccept i).isSome
      ↔ ∃ x ∈ c, x ∈ acceptKeys nfa := by
  rw [alistGet_isSome_iff]
  exact (ConvInv.runInv nfa alphabet io (convertFuel nfa)).accept_iff i c hc

theorem C4_accept_iff_intersects_witness :
    (convert_nfa_to_dfa_full exampleNFA ['a', 'b'] id).dfaStates[2]? = some [4] ∧
    ((alistGet (convert_nfa_to_dfa_full exampleNFA ['a', 'b'] id).dfaAccept 2).isSome
      ↔ ∃ x ∈ ([4] : List Nat), x ∈ acceptKeys exampleNFA) :=
  ⟨by decide, C4_accept_iff_intersects exampleNFA ['a', 'b'] id 2 [4] (by decide)⟩

/-- **C5**: `epsilon_closure` is idempotent as a set operation, and
every input state belongs to its closure. -/
theorem C5_closure_idempotent (nfa : NFA) (S : List Nat) :
    (∀ x, x ∈ epsilon_closure nfa (epsilon_closure nfa S)
      ↔ x ∈ epsilon_closure nfa S) ∧
    (∀ s ∈ S, s ∈ epsilon_closure nfa S) := by
  constructor
  · intro x
    rw [epsilon_closure_mem]
    constructor
    · rintro ⟨t, ht, hr⟩
      obtain ⟨s, hs, hr'⟩ := (epsilon_closure_mem nfa S t).mp ht
      exact (epsilon_closure_mem nfa S x).mpr ⟨s, hs, hr'.comp hr⟩
    · intro hx
      exact ⟨x, hx, EpsReach.refl x⟩
  · intro s hs
    exact (epsilon_closure_mem nfa S s).mpr ⟨s, hs, EpsReach.refl s⟩

theorem C5_closure_idempotent_witness :
    (3 : Nat) ∈ ([3] : List Nat) ∧ (3 : Nat) ∈ epsilon_closure exampleNFA [3] :=
  ⟨by decide, (C5_closure_idempotent exampleNFA [3]).2 3 (by decide)⟩

/-- **C6**: throughout one construction run the StateSet → id map is
injective and stable: no two distinct ids for the same (even just
extensionally equal) StateSet, no two StateSets for the same id, and
earlier entries survive to every later point of the run. -/
theorem C6_mapping_injective (nfa : NFA) (alphabet : List Char)
    (io : List Nat → List Nat) (f f' : Nat) (hf : f ≤ f') :
    MappingInjective nfa alphabet io f f' := by
  have h : ConvInv nfa io (convertRun nfa alphabet io f') :=
    ConvInv.loop_inv alphabet f' _ (ConvInv.initial nfa io)
  refine ⟨?_, ?_, ?_, convertRun_mapping_mono nfa alphabet io f f' hf⟩
  · intro c i j hi hj
    rw [h.mem_mapping_iff] at hi hj
    exact List.getElem?_inj (List.getElem?_eq_some.mp hi).1 h.states_nodup
      (by rw [hi, hj])
  · intro c d i hc hd
    rw [h.mem_mapping_iff] at hc hd
    rw [hc] at hd
    exact Option.some.inj hd
  · intro c d i j hc hd hcd
    rw [h.mem_mapping_iff] at hc hd
    have hcc := h.states_canon c (memOfGetElem _ i c hc)
    have hdc := h.states_canon d (memOfGetElem _ j d hd)
    obtain rfl : c = d := sorted_nodup_ext hcc.1 hdc.1 hcc.2 hdc.2 hcd
    exact List.getElem?_inj (List.getElem?_eq_some.mp hc).1 h.states_nodup
      (by rw [hc, hd])

theorem C6_mapping_injective_witness :
    (1 : Nat) ≤ 2 ∧ MappingInjective twoLabelNFA ['a'] id 1 2 :=
  ⟨by decide, C6_mapping_injective twoLabelNFA ['a'] id 1 2 (by decide)⟩

/-- **C7**: `move_nfa` computes exactly the union over `s ∈ S` of the
`(s, symbol)` transition targets, and returns the empty set when no
state of `S` has a transition on the symbol. -/
theorem C7_move_union (nfa : NFA) (S : List Nat) (symbol : Char) :
    (∀ x, x ∈ move_nfa nfa S symbol ↔ ∃ s ∈ S, x ∈ lookupT nfa (s, some symbol)) ∧
    ((∀ s ∈ S, lookupT nfa (s, some symbol) = []) → move_nfa nfa S symbol = []) := by
  constructor
  · exact move_nfa_mem nfa S symbol
  · intro hnone
    rw [List.eq_nil_iff_forall_not_mem]
    intro x hx
    obtain ⟨s, hs, hxs⟩ := (move_nfa_mem nfa S symbol x).mp hx
    rw [hnone s hs] at hxs
    exact List.not_mem_nil x hxs

theorem C7_move_union_witness :
    (∀ s ∈ ([9] : List Nat), lookupT exampleNFA (s, some 'a') = []) ∧
    move_nfa exampleNFA [9] 'a' = [] :=
  ⟨by decide, (C7_move_union exampleNFA [9] 'a').2 (by decide)⟩

/-- **C8**: comment rows, rows with a column count other than three
and rows with a non-integer `From`/`To` are silently skipped — the
parse of any row list equals the parse of its well-formed rows — and
each remaining well-formed row is parsed into the transitions mapping,
appending its target under its `(From, symbol)` key. -/
theorem C8_lenient_rows (rows : List (List String)) :
    (read_nfa_transitions_csv rows
      = read_nfa_transitions_csv (rows.filter (fun r => ! skippedRow r))) ∧
    (∀ (ts : List ((Int × Option Char) × List Int)) (c0 c1 c2 : String) (frm t : Int),
      pyInt? (pyStrip c0) = some frm → pyInt? (pyStrip c2) = some t →
      pyCommentStart (pyStrip c0) = false →
      readRowStep ts [c0, c1, c2] = appendAt ts (frm, (pyStrip c1).toList.head?) t) := by
  constructor
  · unfold read_nfa_transitions_csv
    exact read_foldl_filter rows []
  · intro ts c0 c1 c2 frm t h0 h2 hc
    exact readRowStep_of_wellformed ts c0 c1 c2 frm t h0 h2 hc

theorem C8_lenient_rows_witness :
    (pyInt? (pyStrip "1") = some 1 ∧ pyInt? (pyStrip "2") = some 2 ∧
      pyCommentStart (pyStrip "1") = false) ∧
    readRowStep [] ["1", "a", "2"]
      = appendAt [] ((1 : Int), (pyStrip "a").toList.head?) 2 :=
  ⟨⟨by decide, by decide, by decide⟩,
    (C8_lenient_rows []).2 [] "1" "a" "2" 1 2 (by decide) (by decide) (by decide)⟩

theorem skippedRow_three (c0 c1 c2 : String) :
    skippedRow [c0, c1, c2]
      = (pyCommentStart (pyStrip c0) ||
          ((pyInt? (pyStrip c0)).isNone || (pyInt? (pyStrip c2)).isNone)) := rfl

/-- **C9**: a row whose (stripped) Input field has more than one
character is not skipped: it is kept, with the symbol silently
truncated to the first character of the field. -/
theorem C9_multichar_truncated (ts : List ((Int × Option Char) × List Int))
    (c0 c1 c2 : String) (frm t : Int) (hd : Char) (rest : List Char)
    (h0 : pyInt? (pyStrip c0) = some frm) (h2 : pyInt? (pyStrip c2) = some t)
    (hc : pyCommentStart (pyStrip c0) = false)
    (hchars : (pyStrip c1).toList = hd :: rest) (_hrest : rest ≠ []) :
    skippedRow [c0, c1, c2] = false ∧
    readRowStep ts [c0, c1, c2] = appendAt ts (frm, some hd) t := by
  constructor
  · rw [skippedRow_three, hc, h0, h2]
    rfl
  · rw [readRowStep_of_wellformed ts c0 c1 c2 frm t h0 h2 hc, hchars]
    rfl

theorem C9_multichar_truncated_witness :
    (pyInt? (pyStrip "1") = some 1 ∧ pyInt? (pyStrip "2") = some 2 ∧
      pyCommentStart (pyStrip "1") = false ∧ (pyStrip "ab").toList = 'a' :: ['b'] ∧
      (['b'] : List Char) ≠ []) ∧
    (skippedRow ["1", "ab", "2"] = false ∧
      readRowStep [] ["1", "ab", "2"] = appendAt [] ((1 : Int), some 'a') 2) :=
  ⟨⟨by decide, by decide, by decide, by decide, by decide⟩,
    C9_multichar_truncated [] "1" "ab" "2" 1 2 'a' ['b'] (by decide) (by decide)
      (by decide) (by decide) (by decide)⟩

/-- **C10**: `epsilon_closure nfa S` contains exactly the states that
are in `S` or reachable from some state of `S` through ε-transitions
alone. -/
theorem C10_closure_reachability (nfa : NFA) (S : List Nat) (x : Nat) :
    x ∈ epsilon_closure nfa S ↔ (x ∈ S ∨ ∃ s ∈ S, EpsReach nfa s x) := by
  rw [epsilon_closure_mem]
  constructor
  · rintro ⟨s, hs, hr⟩
    exact Or.inr ⟨s, hs, hr⟩
  · rintro (hx | ⟨s, hs, hr⟩)
    · exact ⟨x, hx, EpsReach.refl x⟩
    · exact ⟨s, hs, hr⟩

end ZigZin
